import Mathlib

/-!
Shallow embedding of the CSP solver (`csp_solver.py`, class `CSP`) and proofs
about its operations.

Python dictionaries are modelled as insertion-ordered association lists with
distinct keys (`Doms`, `Assign`, `Csts`); dictionary access on a key assumed
present is modelled with a default (`Option.getD`).  Constraint predicates are
opaque closures in the source, so they are modelled as Lean functions attached
to their arc tag.  The recursive search and the AC-3 work-queue loop take an
explicit fuel parameter; all statements quantify over the fuel or are proved
at a concrete fuel, matching the source in which both loops simply run until
done.
-/

namespace CSPSolver

abbrev Var := Nat
abbrev Val := Int

/-- A constraint as stored in `self.constraints[var]`: an arc tag together
with the closure.  `unary v p` models `((v,), lambda x: ...)`; `binary s t p`
models `((s, t), lambda x, y: ...)`. -/
inductive Cst where
  | unary (v : Var) (p : Val → Bool)
  | binary (src tgt : Var) (p : Val → Val → Bool)

/-- The `self.constraints` dictionary. -/
abbrev Csts := List (Var × List Cst)

/-- The `self.domains` dictionary. -/
abbrev Doms := List (Var × List Val)

/-- The `assignment` dictionary. -/
abbrev Assign := List (Var × Val)

/-- Dictionary lookup on an association list (first entry with the key). -/
def alookup {β : Type} : List (Nat × β) → Nat → Option β
  | [], _ => none
  | p :: l, k => if p.1 = k then some p.2 else alookup l k

/-- `self.constraints[v]` (key assumed present, as in the source). -/
def cget (cs : Csts) (v : Var) : List Cst := (alookup cs v).getD []

/-- `self.domains[v]` (key assumed present, as in the source). -/
def dget (d : Doms) (v : Var) : List Val := (alookup d v).getD []

/-- `self.domains[v] = w`: in-place update of an existing key. -/
def dset (d : Doms) (v : Var) (w : List Val) : Doms :=
  d.map fun p => if p.1 = v then (v, w) else p

/-- `v in assignment`. -/
def amem (a : Assign) (v : Var) : Bool := (alookup a v).isSome

/-- `assignment[v]` (key assumed present where the source reads it). -/
def aget (a : Assign) (v : Var) : Val := (alookup a v).getD 0

/-- `assignment[v] = x`: update in place if the key exists, else append
(Python dict insertion order). -/
def aset (a : Assign) (v : Var) (x : Val) : Assign :=
  if amem a v then a.map fun p => if p.1 = v then (v, x) else p
  else a ++ [(v, x)]

/-- `del assignment[v]`. -/
def adel (a : Assign) (v : Var) : Assign := a.filter fun p => p.1 != v

/-- The `CSP` object: static fields.  The mutable `self.domains` and the
`assignment` dictionary are threaded through the functions below. -/
structure CSP where
  /-- `self.variables` (`variables` is a reserved word in Lean 4). -/
  vars : List Var
  constraints : Csts
  forward_check : Bool

/-- `CSP.get_arcs`: every binary arc tag, in registration order. -/
def get_arcs (cs : Csts) : List (Var × Var) :=
  cs.flatMap fun vc => vc.2.filterMap fun c => match c with
    | .binary s t _ => some (s, t)
    | .unary _ _ => none

/-- `sys.maxsize`, the initial minimum in `select_unassigned_var`. -/
def maxsize : Nat := 2 ^ 63 - 1

/-- The Degree-heuristic count for one variable: its constraints that are
binary with an unassigned arc partner (`arc[1] not in assignment`). -/
def degCount (cs : Csts) (a : Assign) (v : Var) : Nat :=
  (cget cs v).foldl (fun n c => match c with
    | .binary _ t _ => if amem a t then n else n + 1
    | .unary _ _ => n) 0

/-- The MRV scan of `select_unassigned_var`: minimum current domain size over
unassigned variables, starting from `sys.maxsize`. -/
def minDomainSize (d : Doms) (a : Assign) : Nat :=
  d.foldl (fun m p => if !amem a p.1 && decide (p.2.length < m) then p.2.length else m) maxsize

/-- The `tied_vars` list of `select_unassigned_var`. -/
def tiedVars (d : Doms) (a : Assign) (m : Nat) : List Var :=
  (d.filter fun p => !amem a p.1 && p.2.length == m).map Prod.fst

/-- `CSP.select_unassigned_var`: MRV, then the Degree heuristic on ties. -/
def select_unassigned_var (cs : Csts) (d : Doms) (a : Assign) : Var :=
  let m := minDomainSize d a
  let tied := tiedVars d a m
  if tied.length == 1 then tied.headD 0
  else
    (tied.foldl (fun acc v =>
      let cur := degCount cs a v
      if acc.2 < cur then (v, cur) else acc) (tied.headD 0, 0)).1

/-- Stable insertion of a (value, count) pair: placed before the first
element whose count is not smaller. -/
def insertByCount (x : Val × Nat) : List (Val × Nat) → List (Val × Nat)
  | [] => [x]
  | y :: ys => if y.2 < x.2 then y :: insertByCount x ys else x :: y :: ys

/-- Stable ascending sort by count, modelling Python `sorted(..., key=count)`. -/
def sortByCount : List (Val × Nat) → List (Val × Nat)
  | [] => []
  | x :: xs => insertByCount x (sortByCount xs)

/-- The LCV count computed by `get_ordered_domain` for one candidate value:
over the variable's stored binary constraints, number of values in the arc
partner's current domain failing the constraint. -/
def lcvCount (cs : Csts) (d : Doms) (v : Var) (x : Val) : Nat :=
  (cget cs v).foldl (fun n c => match c with
    | .binary _ t p => n + (dget d t).countP fun y => !p x y
    | .unary _ _ => n) 0

/-- `CSP.get_ordered_domain`: Least-Constraining-Value ordering.  The
`ordered_domains` dictionary keyed by value is the list of (value, count)
pairs in domain order; this coincides with the source for duplicate-free
domains, the only ones the data model admits. -/
def get_ordered_domain (cs : Csts) (d : Doms) (v : Var) : List Val :=
  (sortByCount ((dget d v).map fun x => (x, lcvCount cs d v x))).map Prod.fst

/-- `CSP.is_consistent`: the unary check `constraint[0] == (variable,)` and,
for every assigned variable other than `variable`, the binary check
`constraint[0] == (variable, assigned_var)`. -/
def is_consistent (cs : Csts) (v : Var) (x : Val) (a : Assign) : Bool :=
  (cget cs v).all fun c => match c with
    | .unary w p => !(w == v) || p x
    | .binary s t p => (a.filter fun q => q.1 != v).all fun q =>
        !(s == v && t == q.1) || p x q.2

/-- The support test of `CSP.revise` for one value `X`: the dictionary
`y_success` maps each distinct value of `y`'s domain to the number of times
the inner double loop satisfied a constraint at it, so the entry at `Y` is
`count Y * (number of preds satisfied by (X, Y))`; the test asks whether some
entry equals `len(constraints)`. -/
def supported (preds : List (Val → Val → Bool)) (ydom : List Val) (X : Val) : Bool :=
  ydom.any fun Y => (ydom.countP fun z => z == Y) * (preds.countP fun p => p X Y) == preds.length

/-- `CSP.revise x y`: gathers the constraints tagged `(x, y)` under `x`,
then scans `x`'s domain in order, removing each value until the first
supported one (the loop exits with `break` there).  The scan-with-removal
therefore leaves `dropWhile (not supported)` of the domain.  Returns the
updated domains and whether anything was removed. -/
def revise (cs : Csts) (d : Doms) (x y : Var) : Doms × Bool :=
  let xdom := dget d x
  let ydom := dget d y
  let preds := (cget cs x).filterMap fun c => match c with
    | .binary s t p => if s == x && t == y then some p else none
    | .unary _ _ => none
  if preds.isEmpty then (d, false)
  else
    let newx := xdom.dropWhile fun X => !supported preds ydom X
    (dset d x newx, !(newx.length == xdom.length))

/-- The work-queue loop of `CSP.ac_3`: pops the front arc, revises, fails on
an empty domain, and re-enqueues the arcs targeting `x` when `x`'s domain
changed.  `none` means the fuel ran out before the queue emptied. -/
def ac3_loop (cs : Csts) (arcs : List (Var × Var)) :
    Nat → List (Var × Var) → Doms → Option (Bool × Doms)
  | 0, _, _ => none
  | _ + 1, [], d => some (true, d)
  | fuel + 1, (x, y) :: q, d =>
    let r := revise cs d x y
    if (dget r.1 x).isEmpty then some (false, r.1)
    else if r.2 then ac3_loop cs arcs fuel (q ++ arcs.filter fun ar => ar.2 == x) r.1
    else ac3_loop cs arcs fuel q r.1

/-- `CSP.ac_3`: a no-op returning true when forward checking is off,
otherwise the queue loop seeded with the full arc list. -/
def ac_3 (c : CSP) (fuel : Nat) (d : Doms) : Option (Bool × Doms) :=
  if c.forward_check then
    ac3_loop c.constraints (get_arcs c.constraints) fuel (get_arcs c.constraints) d
  else some (true, d)

/-- The `forward_assignments` comprehension of `CSP.back_track`: every
variable whose current domain is a singleton and that is not yet assigned. -/
def forward_assignments (d : Doms) (a : Assign) : List (Var × Val) :=
  (d.filter fun p => p.2.length == 1 && !amem a p.1).map fun p => (p.1, p.2.headD 0)

/-- `CSP.add_assignments`. -/
def add_assignments (fwd : List (Var × Val)) (a : Assign) : Assign :=
  fwd.foldl (fun acc q => aset acc q.1 q.2) a

/-- `CSP.del_assignments`. -/
def del_assignments (fwd : List (Var × Val)) (a : Assign) : Assign :=
  fwd.foldl (fun acc q => adel acc q.1) a

/-- Outcome of a `back_track` call: `success = false` models `return False`,
`success = true` models returning the assignment dictionary.  Because the
dictionary is shared and mutated, its final state (and that of
`self.domains`) is part of the outcome in both cases. -/
structure BTRes where
  success : Bool
  assignment : Assign
  domains : Doms
deriving DecidableEq

/-- The Python truthiness test `if result:` applied to a `back_track`
result: `False` is falsy, and so is an empty returned dictionary. -/
def truthy (r : BTRes) : Bool := r.success && !r.assignment.isEmpty

mutual

/-- `CSP.back_track`: base case on a complete assignment, else select a
variable and iterate over its LCV-ordered domain.  `none` = out of fuel. -/
def back_track (c : CSP) : Nat → Doms → Assign → Option BTRes
  | 0, _, _ => none
  | fuel + 1, d, a =>
    if a.length == c.vars.length then some ⟨true, a, d⟩
    else
      let v := select_unassigned_var c.constraints d a
      try_values c fuel v (get_ordered_domain c.constraints d v) d a

/-- The value loop of `CSP.back_track`.  For a consistent value: commit it,
snapshot the domains, force the variable's domain to the single value, run
`ac_3`, collect forward assignments; on propagation success merge them and
recurse, returning a truthy result immediately; otherwise restore the domain
snapshot, and only when propagation succeeded delete the merged forward
assignments and the trial entry (the source skips `del_assignments` when
`inferences` is false, so the trial entry stays in the dictionary). -/
def try_values (c : CSP) : Nat → Var → List Val → Doms → Assign → Option BTRes
  | _, _, [], d, a => some ⟨false, a, d⟩
  | 0, _, _ :: _, _, _ => none
  | fuel + 1, v, val :: rest, d, a =>
    if is_consistent c.constraints v val a then
      let a1 := aset a v val
      let d1 := dset d v [val]
      match ac_3 c (fuel + 1) d1 with
      | none => none
      | some (inf, d2) =>
        let fwd := forward_assignments d2 a1
        if inf then
          let a2 := add_assignments fwd a1
          match back_track c fuel d2 a2 with
          | none => none
          | some r =>
            if truthy r then some r
            else try_values c fuel v rest d (del_assignments (fwd ++ [(v, val)]) r.assignment)
        else try_values c fuel v rest d a1
    else try_values c fuel v rest d a

end

/-- The branch of `CSP.print_assignment`: prints NO SOLUTION exactly when
the passed dictionary is falsy, i.e. empty. -/
def prints_no_solution (a : Assign) : Bool := a.isEmpty

/-- Evaluation of one stored constraint entry under a total valuation. -/
def cstHolds (f : Var → Val) : Cst → Bool
  | .unary v p => p (f v)
  | .binary s t p => p (f s) (f t)

/-- A fully specified assignment satisfies every constraint of the model. -/
def assign_sat (cs : Csts) (a : Assign) : Bool :=
  cs.all fun vc => vc.2.all (cstHolds (aget a))

/-- All total assignments choosing one value per domain entry. -/
def all_assignments : Doms → List Assign
  | [] => [[]]
  | (v, dom) :: rest => (all_assignments rest).flatMap fun a => dom.map fun x => (v, x) :: a

/-- Brute-force solvability over the given domains. -/
def solvable (cs : Csts) (d : Doms) : Bool := (all_assignments d).any (assign_sat cs)

/-- Source variable of a stored constraint entry. -/
def srcOf : Cst → Var
  | .unary w _ => w
  | .binary s _ _ => s

/-- The elimination count named by the specification for the LCV ordering:
over the variable's outbound binary constraints, the number of values in the
partner's current domain that fail the constraint were the candidate value
committed. -/
def elimCount (cs : Csts) (d : Doms) (v : Var) (x : Val) : Nat :=
  (cget cs v).foldl (fun n c => match c with
    | .binary s t p => if s = v then n + (dget d t).countP (fun y => !p x y) else n
    | .unary _ _ => n) 0

/-- Recursive form of the Degree-heuristic fold of `select_unassigned_var`
(the running best variable and count), introduced for reasoning. -/
def degfold (cs : Csts) (a : Assign) : List Var → Var × Nat → Var × Nat
  | [], acc => acc
  | u :: R, acc =>
    let cur := degCount cs a u
    degfold cs a R (if acc.2 < cur then (u, cur) else acc)

/-! ### Concrete instances

These model problem inputs to the solver.  A logical binary relation is
installed as two directed constraints with inverse comparators, exactly as
`make_constraints` does (the inverse of `==` is `==`, of `!=` is `!=`). -/

/-- The comparator closure of a `==` constraint (both directions). -/
def eqI : Val → Val → Bool := fun x y => x == y

/-- The comparator closure of a `!=` constraint (both directions). -/
def neI : Val → Val → Bool := fun x y => x != y

/-- The unary closure of `1 * X + 0 != 1`. -/
def neOneI : Val → Bool := fun x => x != 1

/-- The unary closure of `1 * X + 0 > 0`. -/
def gtZeroI : Val → Bool := fun x => decide ((0 : Int) < x)

/-- Two variables related by `X0 == X1`. -/
def csPair : Csts := [(0, [.binary 0 1 eqI]), (1, [.binary 1 0 eqI])]

/-- Domains `X0 ∈ {0}`, `X1 ∈ {1}`: the only trial `X0 := 0` makes
propagation empty a domain. -/
def domsPair : Doms := [(0, [0]), (1, [1])]

/-- The pair CSP with forward checking on. -/
def cspPairFC : CSP := ⟨[0, 1], csPair, true⟩

/-- Constraints `X0 == X1` and the unary `X1 != 1`. -/
def csE3 : Csts := [(0, [.binary 0 1 eqI]), (1, [.binary 1 0 eqI, .unary 1 neOneI])]

/-- Domains `X0 ∈ {1}`, `X1 ∈ {0, 1}` for `csE3`: unsolvable, since `X1`
must equal `X0 = 1` yet differ from 1. -/
def domsE3 : Doms := [(0, [1]), (1, [0, 1])]

/-- Variable 0 unconstrained, variable 1 under the unary `1 * X1 + 0 > 0`
(the problem file `1:1` / `1 * X1 + 0 > 0`). -/
def csE4 : Csts := [(0, []), (1, [.unary 1 gtZeroI])]

/-- Domains `{0}` for both variables of `csE4`: unsolvable, since `X1 = 0`
violates `X1 > 0`. -/
def domsE4 : Doms := [(0, [0]), (1, [0])]

/-- The triangle: three variables, pairwise `!=`, two colors. -/
def csTri : Csts := [(0, [.binary 0 1 neI, .binary 0 2 neI]),
  (1, [.binary 1 0 neI, .binary 1 2 neI]),
  (2, [.binary 2 1 neI, .binary 2 0 neI])]

/-- Domains `{0, 1}` for the three triangle variables. -/
def domsTri : Doms := [(0, [0, 1]), (1, [0, 1]), (2, [0, 1])]

/-! ### Helper lemmas about the dictionary model -/

theorem alookup_mem {β : Type} :
    ∀ {l : List (Nat × β)} {k : Nat} {v : β}, alookup l k = some v → (k, v) ∈ l := by
  intro l
  induction l with
  | nil => intro k v h; simp [alookup] at h
  | cons p l ih =>
    intro k v h
    obtain ⟨a, b⟩ := p
    by_cases hk : a = k
    · subst hk
      simp [alookup] at h
      subst h
      exact List.mem_cons_self _ _
    · simp [alookup, hk] at h
      exact List.mem_cons_of_mem _ (ih h)

theorem alookup_isSome_iff {β : Type} :
    ∀ {l : List (Nat × β)} {k : Nat}, (alookup l k).isSome = true ↔ k ∈ l.map Prod.fst := by
  intro l
  induction l with
  | nil => intro k; simp [alookup]
  | cons p l ih =>
    intro k
    by_cases hk : p.1 = k
    · simp [alookup, hk]
    · have : ¬ k = p.1 := fun h => hk h.symm
      simp [alookup, hk, this, ih]

theorem alookup_dset (d : Doms) (x : Var) (w : List Val) (v : Var) :
    alookup (dset d x w) v = if v = x then (alookup d x).map (fun _ => w) else alookup d v := by
  induction d with
  | nil => by_cases h : v = x <;> simp [dset, alookup, h]
  | cons p d ih =>
    have hd : dset (p :: d) x w = (if p.1 = x then (x, w) else p) :: dset d x w := rfl
    rw [hd]
    by_cases h1 : p.1 = x
    · rw [if_pos h1]
      by_cases h2 : v = x
      · subst h2
        simp [alookup, h1, ih]
      · have h3 : ¬ x = v := fun h => h2 h.symm
        have h4 : ¬ p.1 = v := by rw [h1]; exact h3
        simp [alookup, h3, h2, ih, h4]
    · rw [if_neg h1]
      by_cases h2 : v = x
      · subst h2
        simp [alookup, h1, ih]
      · by_cases h3 : p.1 = v
        · simp [alookup, h3, h2]
        · simp [alookup, h3, h2, ih]

theorem dget_dset_ne {v x : Var} (d : Doms) (w : List Val) (h : v ≠ x) :
    dget (dset d x w) v = dget d v := by
  simp [dget, alookup_dset, h]

theorem dget_dset_of_mem {x : Var} {d : Doms} (w : List Val) (h : x ∈ d.map Prod.fst) :
    dget (dset d x w) x = w := by
  rcases Option.isSome_iff_exists.mp (alookup_isSome_iff.mpr h) with ⟨u, hu⟩
  simp [dget, alookup_dset, hu]

theorem keys_dset (d : Doms) (x : Var) (w : List Val) :
    (dset d x w).map Prod.fst = d.map Prod.fst := by
  induction d with
  | nil => rfl
  | cons p d ih =>
    by_cases h : p.1 = x <;> simp [dset, h] at ih ⊢ <;> exact ih

theorem sublist_dropWhile {α : Type} (p : α → Bool) :
    ∀ l : List α, List.Sublist (l.dropWhile p) l := by
  intro l
  induction l with
  | nil => exact List.Sublist.refl _
  | cons a l ih =>
    rw [List.dropWhile_cons]
    by_cases h : p a
    · simpa [h] using ih.cons a
    · simp [h]

theorem mem_dropWhile {α : Type} (p : α → Bool) {a : α} :
    ∀ {l : List α}, a ∈ l → p a = false → a ∈ l.dropWhile p := by
  intro l
  induction l with
  | nil => intro h; simp at h
  | cons b l ih =>
    intro hmem hpa
    rw [List.dropWhile_cons]
    by_cases hb : p b
    · rcases List.mem_cons.mp hmem with h | h
      · rw [h] at hpa; rw [hpa] at hb; exact absurd hb (by simp)
      · simpa [hb] using ih h hpa
    · simpa [hb] using hmem

theorem countP_beq_eq_one {α : Type} [BEq α] [LawfulBEq α] {l : List α} {a : α}
    (hnd : l.Nodup) (hmem : a ∈ l) : (l.countP fun z => z == a) = 1 := by
  induction l with
  | nil => simp at hmem
  | cons b l ih =>
    rw [List.nodup_cons] at hnd
    rcases List.mem_cons.mp hmem with h | h
    · subst h
      rw [List.countP_cons]
      have hz : (l.countP fun z => z == a) = 0 :=
        List.countP_eq_zero.mpr (fun z hz => by simp; intro he; rw [he] at hz; exact hnd.1 hz)
      simp [hz]
    · rw [List.countP_cons]
      have hb : ¬ b = a := fun he => by rw [he] at hnd; exact hnd.1 h
      simp [hb, ih hnd.2 h]

/-! ### AC-3 preserves domains as subsequences (claim C8) -/

theorem dget_revise_sublist (cs : Csts) (d : Doms) (x y : Var) (v : Var) :
    List.Sublist (dget (revise cs d x y).1 v) (dget d v) := by
  unfold revise
  set preds := (cget cs x).filterMap fun c => match c with
    | .binary s t p => if s == x && t == y then some p else none
    | .unary _ _ => none with hp
  by_cases he : preds.isEmpty
  · simp [he]
  · simp only [he, Bool.false_eq_true, if_false]
    by_cases hv : v = x
    · subst hv
      by_cases hk : v ∈ d.map Prod.fst
      · rw [dget_dset_of_mem _ hk]
        exact sublist_dropWhile _ _
      · have : (alookup d v) = none := by
          cases hl : alookup d v with
          | none => rfl
          | some u => exact absurd (alookup_isSome_iff.mp (by simp [hl])) hk
        simp [dget, alookup_dset, this]
    · rw [dget_dset_ne _ _ hv]

theorem ac3_loop_sublist (cs : Csts) (arcs : List (Var × Var)) :
    ∀ (fuel : Nat) (q : List (Var × Var)) (d : Doms) (b : Bool) (d' : Doms),
      ac3_loop cs arcs fuel q d = some (b, d') →
      ∀ v, List.Sublist (dget d' v) (dget d v) := by
  intro fuel
  induction fuel with
  | zero => intro q d b d' h; simp [ac3_loop] at h
  | succ fuel ih =>
    intro q d b d' h v
    cases q with
    | nil =>
      simp [ac3_loop] at h
      rw [← h.2]
    | cons ar q =>
      obtain ⟨x, y⟩ := ar
      rw [ac3_loop] at h
      by_cases hemp : (dget (revise cs d x y).1 x).isEmpty
      · simp only [hemp, if_true] at h
        cases h
        exact dget_revise_sublist cs d x y v
      · simp only [hemp, Bool.false_eq_true, if_false] at h
        by_cases hrev : (revise cs d x y).2
        · simp only [hrev, if_true] at h
          exact (ih _ _ _ _ h v).trans (dget_revise_sublist cs d x y v)
        · simp only [hrev, Bool.false_eq_true, if_false] at h
          exact (ih _ _ _ _ h v).trans (dget_revise_sublist cs d x y v)

/-- C8: when forward checking is disabled `ac_3` reports true and returns
the domains untouched; whenever `ac_3` returns, every variable's domain is a
subsequence of its domain before the call (values only removed, order kept). -/
theorem c8_ac3_domains_shrink (c : CSP) (fuel : Nat) (d : Doms) (b : Bool) (d' : Doms)
    (h : ac_3 c fuel d = some (b, d')) :
    (c.forward_check = false → b = true ∧ d' = d) ∧
    ∀ v, List.Sublist (dget d' v) (dget d v) := by
  unfold ac_3 at h
  by_cases hfc : c.forward_check
  · simp only [hfc, if_true] at h
    refine ⟨fun hc => ?_, ac3_loop_sublist c.constraints _ fuel _ d b d' h⟩
    rw [hfc] at hc
    simp at hc
  · simp only [hfc, Bool.false_eq_true, if_false, Option.some_inj, Prod.mk.injEq] at h
    obtain ⟨hb, hd⟩ := h
    refine ⟨fun _ => ⟨hb.symm, hd.symm⟩, ?_⟩
    rw [← hd]
    exact fun v => List.Sublist.refl _

/-! ### AC-3 never removes a global solution's values (claim C9) -/

theorem mem_cget {cs : Csts} {v : Var} {c : Cst} (h : c ∈ cget cs v) :
    (v, cget cs v) ∈ cs := by
  unfold cget at h ⊢
  cases hl : alookup cs v with
  | none => rw [hl] at h; simp at h
  | some lst => simpa using alookup_mem hl

theorem supported_of_solution {cs : Csts} {x y : Var} (σ : Var → Val)
    (hsat : ∀ vc ∈ cs, ∀ cst ∈ vc.2, cstHolds σ cst = true)
    {ydom : List Val} (hnd : ydom.Nodup) (hy : σ y ∈ ydom) :
    supported ((cget cs x).filterMap fun c => match c with
      | .binary s t p => if s == x && t == y then some p else none
      | .unary _ _ => none) ydom (σ x) = true := by
  set preds := (cget cs x).filterMap fun c => match c with
    | .binary s t p => if s == x && t == y then some p else none
    | .unary _ _ => none with hpreds
  have hall : ∀ p ∈ preds, p (σ x) (σ y) = true := by
    intro p hp
    rw [hpreds] at hp
    rcases List.mem_filterMap.mp hp with ⟨c, hc, hcp⟩
    cases c with
    | unary w q => simp at hcp
    | binary s t q =>
      by_cases hst : (s == x && t == y) = true
      · simp only [hst, if_true, Option.some_inj] at hcp
        have hst2 : s = x ∧ t = y := by simpa using hst
        obtain ⟨hs, ht⟩ := hst2
        have := hsat (x, cget cs x) (mem_cget hc) _ hc
        rw [cstHolds] at this
        rw [← hcp, ← hs, ← ht]
        exact this
      · simp [hst] at hcp
  unfold supported
  rw [List.any_eq_true]
  refine ⟨σ y, hy, ?_⟩
  rw [countP_beq_eq_one hnd hy, List.countP_eq_length.mpr hall]
  simp

theorem revise_preserves_solution (cs : Csts) (σ : Var → Val) (K : List Var)
    (hsat : ∀ vc ∈ cs, ∀ cst ∈ vc.2, cstHolds σ cst = true)
    (d : Doms) (x y : Var)
    (hK : d.map Prod.fst = K) (hx : x ∈ K) (hy : y ∈ K)
    (hnd : ∀ v ∈ K, (dget d v).Nodup)
    (hmem : ∀ v ∈ K, σ v ∈ dget d v) :
    (revise cs d x y).1.map Prod.fst = K ∧
    (∀ v ∈ K, (dget (revise cs d x y).1 v).Nodup) ∧
    (∀ v ∈ K, σ v ∈ dget (revise cs d x y).1 v) := by
  unfold revise
  set preds := (cget cs x).filterMap fun c => match c with
    | .binary s t p => if s == x && t == y then some p else none
    | .unary _ _ => none with hpreds
  by_cases he : preds.isEmpty
  · simp only [he, if_true]
    exact ⟨hK, hnd, hmem⟩
  · simp only [he, Bool.false_eq_true, if_false]
    have hxk : x ∈ d.map Prod.fst := by rw [hK]; exact hx
    have hself := dget_dset_of_mem (d := d)
      ((dget d x).dropWhile fun X => !supported preds (dget d y) X) hxk
    refine ⟨by rw [keys_dset]; exact hK, ?_, ?_⟩
    · intro v hv
      by_cases hvx : v = x
      · subst hvx
        rw [hself]
        exact ((sublist_dropWhile _ _).nodup (hnd v hv))
      · rw [dget_dset_ne _ _ hvx]
        exact hnd v hv
    · intro v hv
      by_cases hvx : v = x
      · subst hvx
        rw [hself]
        refine mem_dropWhile _ (hmem v hv) ?_
        have hsup := @supported_of_solution cs v y σ hsat (dget d y)
          (hnd y hy) (hmem y hy)
        rw [← hpreds] at hsup
        show (!supported preds (dget d y) (σ v)) = false
        rw [hsup]
        rfl
      · rw [dget_dset_ne _ _ hvx]
        exact hmem v hv

theorem ac3_loop_preserves (cs : Csts) (arcs : List (Var × Var)) (σ : Var → Val) (K : List Var)
    (hsat : ∀ vc ∈ cs, ∀ cst ∈ vc.2, cstHolds σ cst = true)
    (harc : ∀ ar ∈ arcs, ar.1 ∈ K ∧ ar.2 ∈ K) :
    ∀ (fuel : Nat) (q : List (Var × Var)) (d : Doms) (b : Bool) (d' : Doms),
      d.map Prod.fst = K →
      (∀ ar ∈ q, ar.1 ∈ K ∧ ar.2 ∈ K) →
      (∀ v ∈ K, (dget d v).Nodup) →
      (∀ v ∈ K, σ v ∈ dget d v) →
      ac3_loop cs arcs fuel q d = some (b, d') →
      ∀ v ∈ K, σ v ∈ dget d' v := by
  intro fuel
  induction fuel with
  | zero => intro q d b d' _ _ _ _ h; simp [ac3_loop] at h
  | succ fuel ih =>
    intro q d b d' hK hq hnd hmem h
    cases q with
    | nil =>
      simp only [ac3_loop, Option.some_inj, Prod.mk.injEq] at h
      rw [← h.2]
      exact hmem
    | cons ar q =>
      obtain ⟨x, y⟩ := ar
      rw [ac3_loop] at h
      have hxy := hq (x, y) (List.mem_cons_self _ _)
      have hrev := revise_preserves_solution cs σ K hsat d x y hK hxy.1 hxy.2 hnd hmem
      have hqtail : ∀ ar ∈ q, ar.1 ∈ K ∧ ar.2 ∈ K :=
        fun ar har => hq ar (List.mem_cons_of_mem _ har)
      by_cases hemp : (dget (revise cs d x y).1 x).isEmpty
      · simp only [hemp, if_true, Option.some_inj, Prod.mk.injEq] at h
        rw [← h.2]
        exact hrev.2.2
      · simp only [hemp, Bool.false_eq_true, if_false] at h
        by_cases hr2 : (revise cs d x y).2
        · simp only [hr2, if_true] at h
          refine ih _ _ _ _ hrev.1 ?_ hrev.2.1 hrev.2.2 h
          intro ar har
          rcases List.mem_append.mp har with h1 | h1
          · exact hqtail ar h1
          · exact harc ar (List.mem_of_mem_filter h1)
        · simp only [hr2, Bool.false_eq_true, if_false] at h
          exact ih _ _ _ _ hrev.1 hqtail hrev.2.1 hrev.2.2 h

/-- C9: with forward checking enabled (or not), if a total valuation
satisfies every constraint of the model and every variable's current domain
contains its value, then after `ac_3` returns, every variable's domain still
contains that value: arc consistency never removes a value participating in
a global solution.  The hypotheses are the data-model invariants: domains
are duplicate-free and every arc joins two distinct present variables. -/
theorem c9_ac3_keeps_solution_values (c : CSP) (σ : Var → Val) (fuel : Nat)
    (d : Doms) (b : Bool) (d' : Doms)
    (hsat : ∀ vc ∈ c.constraints, ∀ cst ∈ vc.2, cstHolds σ cst = true)
    (hmem : ∀ v ∈ d.map Prod.fst, σ v ∈ dget d v)
    (hnd : ∀ v ∈ d.map Prod.fst, (dget d v).Nodup)
    (harc : ∀ ar ∈ get_arcs c.constraints,
      ar.1 ∈ d.map Prod.fst ∧ ar.2 ∈ d.map Prod.fst ∧ ar.1 ≠ ar.2)
    (h : ac_3 c fuel d = some (b, d')) :
    ∀ v ∈ d.map Prod.fst, σ v ∈ dget d' v := by
  unfold ac_3 at h
  by_cases hfc : c.forward_check
  · simp only [hfc, if_true] at h
    exact ac3_loop_preserves c.constraints _ σ _ hsat
      (fun ar har => ⟨(harc ar har).1, (harc ar har).2.1⟩) fuel _ d b d' rfl
      (fun ar har => ⟨(harc ar har).1, (harc ar har).2.1⟩) hnd hmem h
  · simp only [hfc, Bool.false_eq_true, if_false, Option.some_inj, Prod.mk.injEq] at h
    rw [← h.2]
    exact hmem

/-! ### Variable selection: MRV with Degree tie-break (claim C6) -/

theorem alookup_of_mem_nodup {β : Type} :
    ∀ {l : List (Nat × β)}, (l.map Prod.fst).Nodup →
      ∀ {p : Nat × β}, p ∈ l → alookup l p.1 = some p.2 := by
  intro l
  induction l with
  | nil => intro _ p hp; simp at hp
  | cons q l ih =>
    intro hnd p hp
    rw [List.map_cons, List.nodup_cons] at hnd
    rcases List.mem_cons.mp hp with h | h
    · subst h
      simp [alookup]
    · have hne : ¬ q.1 = p.1 := by
        intro he
        exact hnd.1 (he ▸ List.mem_map_of_mem Prod.fst h)
      simp [alookup, hne]
      exact ih hnd.2 h

theorem headD_mem {l : List Var} (h : l ≠ []) : l.headD 0 ∈ l := by
  cases l with
  | nil => exact absurd rfl h
  | cons x l => exact List.mem_cons_self _ _

theorem eq_headD_of_length_one {l : List Var} (h : l.length = 1) :
    ∀ u ∈ l, u = l.headD 0 := by
  cases l with
  | nil => simp at h
  | cons x l =>
    cases l with
    | nil => intro u hu; simpa using hu
    | cons y l => simp at h

theorem mem_tiedVars {d : Doms} {a : Assign} {m : Nat} {u : Var} :
    u ∈ tiedVars d a m ↔ ∃ p ∈ d, p.1 = u ∧ amem a u = false ∧ p.2.length = m := by
  unfold tiedVars
  constructor
  · intro h
    rcases List.mem_map.mp h with ⟨p, hp, hpu⟩
    have hf := List.mem_filter.mp hp
    have hc : amem a p.1 = false ∧ p.2.length = m := by simpa using hf.2
    exact ⟨p, hf.1, hpu, hpu ▸ hc.1, hc.2⟩
  · intro ⟨p, hp, hpu, hu, hl⟩
    refine List.mem_map.mpr ⟨p, List.mem_filter.mpr ⟨hp, ?_⟩, hpu⟩
    rw [hpu]
    simp [hu, hl]

theorem min_fold_spec (a : Assign) :
    ∀ (d : Doms) (M : Nat),
      d.foldl (fun m p => if !amem a p.1 && decide (p.2.length < m) then p.2.length else m) M
          ≤ M ∧
      (∀ p ∈ d, amem a p.1 = false →
        d.foldl (fun m p => if !amem a p.1 && decide (p.2.length < m) then p.2.length else m) M
          ≤ p.2.length) ∧
      (d.foldl (fun m p => if !amem a p.1 && decide (p.2.length < m) then p.2.length else m) M
          = M ∨
        ∃ p ∈ d, amem a p.1 = false ∧ p.2.length =
          d.foldl (fun m p => if !amem a p.1 && decide (p.2.length < m) then p.2.length else m)
            M) := by
  intro d
  induction d with
  | nil => intro M; exact ⟨Nat.le_refl M, by simp, Or.inl rfl⟩
  | cons p d ih =>
    intro M
    rw [List.foldl_cons]
    by_cases hc : (!amem a p.1 && decide (p.2.length < M)) = true
    · rw [if_pos hc]
      have hc2 : amem a p.1 = false ∧ p.2.length < M := by simpa using hc
      obtain ⟨h1, h2, h3⟩ := ih p.2.length
      refine ⟨Nat.le_of_lt (Nat.lt_of_le_of_lt h1 hc2.2), ?_, ?_⟩
      · intro q hq hqa
        rcases List.mem_cons.mp hq with h | h
        · rw [h]; exact h1
        · exact h2 q h hqa
      · rcases h3 with h | ⟨q, hq, hqa, hql⟩
        · exact Or.inr ⟨p, List.mem_cons_self _ _, hc2.1, h.symm⟩
        · exact Or.inr ⟨q, List.mem_cons_of_mem _ hq, hqa, hql⟩
    · rw [if_neg hc]
      obtain ⟨h1, h2, h3⟩ := ih M
      refine ⟨h1, ?_, ?_⟩
      · intro q hq hqa
        rcases List.mem_cons.mp hq with h | h
        · subst h
          have hnlt : ¬ q.2.length < M := by
            intro hlt
            exact hc (by simp [hqa, hlt])
          exact Nat.le_trans h1 (Nat.le_of_not_lt hnlt)
        · exact h2 q h hqa
      · rcases h3 with h | ⟨q, hq, hqa, hql⟩
        · exact Or.inl h
        · exact Or.inr ⟨q, List.mem_cons_of_mem _ hq, hqa, hql⟩

theorem degfold_eq_foldl (cs : Csts) (a : Assign) :
    ∀ (R : List Var) (acc : Var × Nat),
      R.foldl (fun acc v =>
        let cur := degCount cs a v
        if acc.2 < cur then (v, cur) else acc) acc = degfold cs a R acc := by
  intro R
  induction R with
  | nil => intro acc; rfl
  | cons x R ih =>
    intro acc
    rw [List.foldl_cons]
    exact ih _

theorem degree_fold (cs : Csts) (a : Assign) :
    ∀ (R : List Var) (v : Var) (m : Nat),
      degCount cs a v = m →
      List.Pairwise (· < ·) (v :: R) →
      degCount cs a (degfold cs a R (v, m)).1 = (degfold cs a R (v, m)).2 ∧
      m ≤ (degfold cs a R (v, m)).2 ∧
      (∀ u ∈ R, degCount cs a u ≤ (degfold cs a R (v, m)).2) ∧
      ((degfold cs a R (v, m)).1 = v ∨ (degfold cs a R (v, m)).1 ∈ R) ∧
      (∀ u ∈ R, degCount cs a u = (degfold cs a R (v, m)).2 →
        m < (degfold cs a R (v, m)).2 → (degfold cs a R (v, m)).1 ≤ u) ∧
      ((degfold cs a R (v, m)).2 = m → (degfold cs a R (v, m)).1 = v) := by
  intro R
  induction R with
  | nil =>
    intro v m hm _
    exact ⟨hm, Nat.le_refl m, by simp [degfold], Or.inl rfl, by simp [degfold], fun _ => rfl⟩
  | cons x R ih =>
    intro v m hm hpw
    have hvx : v < x := (List.pairwise_cons.mp hpw).1 x (List.mem_cons_self _ _)
    have hpwx : List.Pairwise (· < ·) (x :: R) := (List.pairwise_cons.mp hpw).2
    have hxR : ∀ u ∈ R, x < u := (List.pairwise_cons.mp hpwx).1
    have hunf : degfold cs a (x :: R) (v, m) =
        degfold cs a R (if m < degCount cs a x then (x, degCount cs a x) else (v, m)) := rfl
    rw [hunf]
    by_cases hlt : m < degCount cs a x
    · rw [if_pos hlt]
      obtain ⟨i1, i2, i3, i4, i5, i6⟩ := ih x (degCount cs a x) rfl hpwx
      refine ⟨i1, Nat.le_trans (Nat.le_of_lt hlt) i2, ?_, ?_, ?_, ?_⟩
      · intro u hu
        rcases List.mem_cons.mp hu with h | h
        · rw [h]; exact i2
        · exact i3 u h
      · rcases i4 with h | h
        · refine Or.inr ?_
          rw [h]
          exact List.mem_cons_self _ _
        · exact Or.inr (List.mem_cons_of_mem _ h)
      · intro u hu hdu _
        rcases List.mem_cons.mp hu with h | h
        · rw [h] at hdu ⊢
          exact Nat.le_of_eq (i6 hdu.symm)
        · rcases Nat.lt_or_ge (degCount cs a x)
              (degfold cs a R (x, degCount cs a x)).2 with hx2 | hx2
          · exact i5 u h hdu hx2
          · have hr1 := i6 (Nat.le_antisymm hx2 i2)
            rw [hr1]
            exact Nat.le_of_lt (hxR u h)
      · intro h2m
        have hle : degCount cs a x ≤ m := h2m ▸ i2
        exact absurd (Nat.lt_of_lt_of_le hlt hle) (Nat.lt_irrefl m)
    · rw [if_neg hlt]
      have hpwv : List.Pairwise (· < ·) (v :: R) := by
        have hsub : List.Sublist (v :: R) (v :: x :: R) :=
          List.Sublist.cons₂ v (List.sublist_cons_self x R)
        exact List.Pairwise.sublist hsub hpw
      obtain ⟨i1, i2, i3, i4, i5, i6⟩ := ih v m hm hpwv
      refine ⟨i1, i2, ?_, ?_, ?_, i6⟩
      · intro u hu
        rcases List.mem_cons.mp hu with h | h
        · rw [h]; exact Nat.le_trans (Nat.le_of_not_lt hlt) i2
        · exact i3 u h
      · rcases i4 with h | h
        · exact Or.inl h
        · exact Or.inr (List.mem_cons_of_mem _ h)
      · intro u hu hdu hm2
        rcases List.mem_cons.mp hu with h | h
        · subst h
          have hle : degCount cs a u ≤ m := Nat.le_of_not_lt hlt
          rw [hdu] at hle
          exact absurd (Nat.lt_of_lt_of_le hm2 hle) (Nat.lt_irrefl _)
        · exact i5 u h hdu hm2

/-- C6: with at least one unassigned variable present, under the data-model
invariants (distinct, ascending variable ids as domain keys; domain sizes
below `sys.maxsize`), `select_unassigned_var` returns a member of the MRV
tie list: it is unassigned, its current domain size is the minimum over all
unassigned variables, it maximises the count of binary constraints with an
unassigned arc partner among the tied variables, and among those attaining
that maximum it has the least variable id (the first encountered). -/
theorem c6_select_unassigned_var_spec (cs : Csts) (d : Doms) (a : Assign)
    (hsorted : List.Pairwise (· < ·) (d.map Prod.fst))
    (hsmall : ∀ p ∈ d, p.2.length < maxsize)
    (hex : ∃ p ∈ d, amem a p.1 = false) :
    select_unassigned_var cs d a ∈ tiedVars d a (minDomainSize d a) ∧
    amem a (select_unassigned_var cs d a) = false ∧
    (dget d (select_unassigned_var cs d a)).length = minDomainSize d a ∧
    (∀ p ∈ d, amem a p.1 = false → minDomainSize d a ≤ p.2.length) ∧
    (∀ u ∈ tiedVars d a (minDomainSize d a),
      degCount cs a u ≤ degCount cs a (select_unassigned_var cs d a)) ∧
    (∀ u ∈ tiedVars d a (minDomainSize d a),
      degCount cs a u = degCount cs a (select_unassigned_var cs d a) →
      select_unassigned_var cs d a ≤ u) := by
  have hnd : (d.map Prod.fst).Nodup := hsorted.imp Nat.ne_of_lt
  obtain ⟨p0, hp0, hp0a⟩ := hex
  obtain ⟨m1, m2, m3⟩ := min_fold_spec a d maxsize
  have hmlt : minDomainSize d a < maxsize :=
    Nat.lt_of_le_of_lt (m2 p0 hp0 hp0a) (hsmall p0 hp0)
  have hattained : ∃ p ∈ d, amem a p.1 = false ∧
      p.2.length = minDomainSize d a := by
    rcases m3 with h | h
    · rw [show (minDomainSize d a) = d.foldl (fun m p =>
          if !amem a p.1 && decide (p.2.length < m) then p.2.length else m) maxsize from rfl,
        h] at hmlt
      exact absurd hmlt (Nat.lt_irrefl _)
    · exact h
  obtain ⟨p1, hp1, hp1a, hp1l⟩ := hattained
  have hT : p1.1 ∈ tiedVars d a (minDomainSize d a) :=
    mem_tiedVars.mpr ⟨p1, hp1, rfl, hp1a, hp1l⟩
  have hTne : tiedVars d a (minDomainSize d a) ≠ [] :=
    fun h => by rw [h] at hT; simp at hT
  have hTsorted : List.Pairwise (· < ·) (tiedVars d a (minDomainSize d a)) := by
    refine List.Pairwise.sublist ?_ hsorted
    exact List.Sublist.map Prod.fst (List.filter_sublist d)
  -- facts shared by both selection branches
  have hmemT : ∀ r ∈ tiedVars d a (minDomainSize d a),
      amem a r = false ∧ (dget d r).length = minDomainSize d a := by
    intro r hr
    rcases mem_tiedVars.mp hr with ⟨p, hp, hpu, hua, hul⟩
    refine ⟨hua, ?_⟩
    have := alookup_of_mem_nodup hnd hp
    rw [← hpu, dget, this]
    exact hul
  unfold select_unassigned_var
  by_cases hone : (tiedVars d a (minDomainSize d a)).length == 1
  · simp only [hone, if_true]
    have hhead := headD_mem hTne
    have huniq := eq_headD_of_length_one (by simpa using hone)
    refine ⟨hhead, (hmemT _ hhead).1, (hmemT _ hhead).2, m2, ?_, ?_⟩
    · intro u hu
      rw [huniq u hu]
    · intro u hu _
      rw [huniq u hu]
  · simp only [hone, Bool.false_eq_true, if_false]
    obtain ⟨t0, T', hTeq⟩ : ∃ t0 T', tiedVars d a (minDomainSize d a) = t0 :: T' := by
      cases hTc : tiedVars d a (minDomainSize d a) with
      | nil => exact absurd hTc hTne
      | cons t0 T' => exact ⟨t0, T', rfl⟩
    rw [hTeq]
    have hhd : (t0 :: T').headD 0 = t0 := rfl
    rw [hhd, degfold_eq_foldl cs a]
    have hunf0 : degfold cs a (t0 :: T') (t0, 0) =
        degfold cs a T' (t0, degCount cs a t0) := by
      have hu : degfold cs a (t0 :: T') (t0, 0) =
          degfold cs a T' (if 0 < degCount cs a t0 then (t0, degCount cs a t0)
            else (t0, 0)) := rfl
      rw [hu]
      by_cases h0 : 0 < degCount cs a t0
      · rw [if_pos h0]
      · rw [if_neg h0, Nat.eq_zero_of_not_pos h0]
    rw [hunf0]
    have hTpw : List.Pairwise (· < ·) (t0 :: T') := hTeq ▸ hTsorted
    obtain ⟨i1, i2, i3, i4, i5, i6⟩ := degree_fold cs a T' t0 (degCount cs a t0) rfl hTpw
    set res := degfold cs a T' (t0, degCount cs a t0) with hres
    have hrT : res.1 ∈ t0 :: T' := by
      rcases i4 with h | h
      · rw [h]; exact List.mem_cons_self _ _
      · exact List.mem_cons_of_mem _ h
    have hrT2 : res.1 ∈ tiedVars d a (minDomainSize d a) := by
      rw [hTeq]; exact hrT
    refine ⟨hrT, (hmemT _ hrT2).1, (hmemT _ hrT2).2, m2, ?_, ?_⟩
    · intro u hu
      rw [i1]
      rcases List.mem_cons.mp hu with h | h
      · rw [h]; exact i2
      · exact i3 u h
    · intro u hu hdu
      rw [i1] at hdu
      rcases List.mem_cons.mp hu with h | h
      · rw [h] at hdu ⊢
        exact Nat.le_of_eq (i6 hdu.symm)
      · rcases Nat.lt_or_ge (degCount cs a t0) res.2 with h2 | h2
        · exact i5 u h hdu h2
        · have hr1 := i6 (Nat.le_antisymm h2 i2)
          rw [hr1]
          exact Nat.le_of_lt ((List.pairwise_cons.mp hTpw).1 u h)


/-! ### Value ordering: LCV stable sort (claim C7) -/

theorem perm_insertByCount : ∀ (l : List (Val × Nat)) (x : Val × Nat),
    List.Perm (insertByCount x l) (x :: l) := by
  intro l
  induction l with
  | nil => intro x; exact List.Perm.refl _
  | cons y ys ih =>
    intro x
    simp only [insertByCount]
    by_cases h : y.2 < x.2
    · rw [if_pos h]
      exact (List.Perm.cons y (ih x)).trans (List.Perm.swap x y ys)
    · rw [if_neg h]

theorem perm_sortByCount : ∀ l : List (Val × Nat), List.Perm (sortByCount l) l := by
  intro l
  induction l with
  | nil => exact List.Perm.refl _
  | cons x xs ih =>
    simp only [sortByCount]
    exact (perm_insertByCount (sortByCount xs) x).trans (List.Perm.cons x ih)

theorem pairwise_insertByCount :
    ∀ (l : List (Val × Nat)) (x : Val × Nat),
      l.Pairwise (fun p q => p.2 ≤ q.2) →
      (insertByCount x l).Pairwise (fun p q => p.2 ≤ q.2) := by
  intro l
  induction l with
  | nil => intro x _; simp [insertByCount]
  | cons y ys ih =>
    intro x hpw
    have hy := List.pairwise_cons.mp hpw
    simp only [insertByCount]
    by_cases h : y.2 < x.2
    · rw [if_pos h]
      refine List.pairwise_cons.mpr ⟨?_, ih x hy.2⟩
      intro a ha
      have ha2 : a ∈ x :: ys := (perm_insertByCount ys x).mem_iff.mp ha
      rcases List.mem_cons.mp ha2 with h1 | h1
      · rw [h1]; exact Nat.le_of_lt h
      · exact hy.1 a h1
    · rw [if_neg h]
      refine List.pairwise_cons.mpr ⟨?_, hpw⟩
      intro a ha
      rcases List.mem_cons.mp ha with h1 | h1
      · rw [h1]; exact Nat.le_of_not_lt h
      · exact Nat.le_trans (Nat.le_of_not_lt h) (hy.1 a h1)

theorem pairwise_sortByCount :
    ∀ l : List (Val × Nat), (sortByCount l).Pairwise (fun p q => p.2 ≤ q.2) := by
  intro l
  induction l with
  | nil => simp [sortByCount]
  | cons x xs ih =>
    simp only [sortByCount]
    exact pairwise_insertByCount (sortByCount xs) x ih

theorem filter_insertByCount :
    ∀ (l : List (Val × Nat)) (x : Val × Nat) (n : Nat),
      (insertByCount x l).filter (fun p => p.2 == n) =
        (if x.2 == n then x :: l.filter (fun p => p.2 == n)
          else l.filter (fun p => p.2 == n)) := by
  intro l
  induction l with
  | nil =>
    intro x n
    by_cases h : x.2 == n <;> simp [insertByCount, List.filter, h]
  | cons y ys ih =>
    intro x n
    simp only [insertByCount]
    by_cases h : y.2 < x.2
    · rw [if_pos h]
      by_cases hy : y.2 == n
      · have hx : ¬ x.2 == n := by
          intro hx
          have hy2 : y.2 = n := by simpa using hy
          have hx2 : x.2 = n := by simpa using hx
          rw [hy2, hx2] at h
          exact Nat.lt_irrefl n h
        rw [if_neg hx]
        rw [List.filter_cons_of_pos (by simpa using hy), List.filter_cons_of_pos (by simpa using hy)]
        rw [ih x n, if_neg hx]
      · rw [List.filter_cons_of_neg (by simpa using hy), List.filter_cons_of_neg (by simpa using hy)]
        exact ih x n
    · rw [if_neg h]
      by_cases hx : x.2 == n
      · rw [if_pos hx, List.filter_cons_of_pos (by simpa using hx)]
      · rw [if_neg hx, List.filter_cons_of_neg (by simpa using hx)]

theorem filter_sortByCount :
    ∀ (l : List (Val × Nat)) (n : Nat),
      (sortByCount l).filter (fun p => p.2 == n) = l.filter (fun p => p.2 == n) := by
  intro l
  induction l with
  | nil => intro n; rfl
  | cons x xs ih =>
    intro n
    simp only [sortByCount]
    rw [filter_insertByCount (sortByCount xs) x n]
    by_cases h : x.2 == n
    · rw [if_pos h, ih, List.filter_cons_of_pos (by simpa using h)]
    · rw [if_neg h, ih, List.filter_cons_of_neg (by simpa using h)]

theorem map_fst_filter_shape (cnt : Val → Nat) (n : Nat) :
    ∀ L : List (Val × Nat), (∀ p ∈ L, p.2 = cnt p.1) →
      (L.filter (fun p => p.2 == n)).map Prod.fst =
        (L.map Prod.fst).filter (fun x => cnt x == n) := by
  intro L
  induction L with
  | nil => intro _; rfl
  | cons p L ih =>
    intro hshape
    have hp : p.2 = cnt p.1 := hshape p (List.mem_cons_self _ _)
    have htail : ∀ q ∈ L, q.2 = cnt q.1 :=
      fun q hq => hshape q (List.mem_cons_of_mem _ hq)
    by_cases h : p.2 == n
    · rw [List.filter_cons_of_pos (by simpa using h), List.map_cons, List.map_cons,
        List.filter_cons_of_pos (by rw [← hp]; simpa using h), ih htail]
    · rw [List.filter_cons_of_neg (by simpa using h), List.map_cons,
        List.filter_cons_of_neg (by rw [← hp]; simpa using h), ih htail]

theorem map_fst_pairs (cnt : Val → Nat) :
    ∀ l : List Val, (l.map fun x => (x, cnt x)).map Prod.fst = l := by
  intro l
  induction l with
  | nil => rfl
  | cons x l ih => simp only [List.map_cons, ih]

theorem foldl_lcv_eq_elim (d : Doms) (v : Var) (x : Val) :
    ∀ (l : List Cst), (∀ c ∈ l, srcOf c = v) → ∀ (n m : Nat), n = m →
      l.foldl (fun n c => match c with
        | .binary _ t p => n + (dget d t).countP fun y => !p x y
        | .unary _ _ => n) n =
      l.foldl (fun n c => match c with
        | .binary s t p => if s = v then n + (dget d t).countP (fun y => !p x y) else n
        | .unary _ _ => n) m := by
  intro l
  induction l with
  | nil => intro _ n m h; simpa using h
  | cons c l ih =>
    intro hsrc n m hnm
    have htail : ∀ c ∈ l, srcOf c = v := fun c hc => hsrc c (List.mem_cons_of_mem _ hc)
    rw [List.foldl_cons, List.foldl_cons]
    refine ih htail _ _ ?_
    cases c with
    | unary w p =>
      show n = m
      exact hnm
    | binary s t p =>
      have hs : s = v := hsrc (.binary s t p) (List.mem_cons_self _ _)
      show n + (dget d t).countP (fun y => !p x y) =
        if s = v then m + (dget d t).countP (fun y => !p x y) else m
      rw [if_pos hs, hnm]

theorem lcvCount_eq_elimCount (cs : Csts) (d : Doms) (v : Var)
    (hsrc : ∀ c ∈ cget cs v, srcOf c = v) (x : Val) :
    lcvCount cs d v x = elimCount cs d v x :=
  foldl_lcv_eq_elim d v x (cget cs v) hsrc 0 0 rfl

/-- C7: under the data-model invariants (constraints stored under a variable
have that variable as source; the current domain is duplicate-free, as the
dictionary keyed by value requires), the LCV-ordered domain is a permutation
of the current domain, its elimination counts are non-decreasing, and values
with equal counts keep their original relative order (the filter of the
output at any count equals the filter of the domain at that count). -/
theorem c7_ordered_domain_spec (cs : Csts) (d : Doms) (v : Var)
    (hsrc : ∀ c ∈ cget cs v, srcOf c = v)
    (hnd : (dget d v).Nodup) :
    List.Perm (get_ordered_domain cs d v) (dget d v) ∧
    List.Pairwise (fun x y => elimCount cs d v x ≤ elimCount cs d v y)
      (get_ordered_domain cs d v) ∧
    (∀ n : Nat, (get_ordered_domain cs d v).filter (fun x => elimCount cs d v x == n) =
      (dget d v).filter (fun x => elimCount cs d v x == n)) := by
  have hfun : lcvCount cs d v = elimCount cs d v :=
    funext (lcvCount_eq_elimCount cs d v hsrc)
  rw [← hfun]
  unfold get_ordered_domain
  set pairs := (dget d v).map fun x => (x, lcvCount cs d v x) with hpairs
  have hperm : List.Perm (sortByCount pairs) pairs := perm_sortByCount pairs
  have hshape : ∀ p ∈ sortByCount pairs, p.2 = lcvCount cs d v p.1 := by
    intro p hp
    have : p ∈ pairs := hperm.mem_iff.mp hp
    rcases List.mem_map.mp this with ⟨x, _, hx⟩
    rw [← hx]
  refine ⟨?_, ?_, ?_⟩
  · exact ((hperm.map Prod.fst).trans (by rw [map_fst_pairs])).symm.symm
  · have hpw := pairwise_sortByCount pairs
    have hpw2 : (sortByCount pairs).Pairwise
        (fun p q => lcvCount cs d v p.1 ≤ lcvCount cs d v q.1) := by
      refine List.Pairwise.imp_of_mem ?_ hpw
      intro p q hp hq hle
      rw [← hshape p hp, ← hshape q hq]
      exact hle
    exact List.pairwise_map.mpr hpw2
  · intro n
    rw [← map_fst_filter_shape (lcvCount cs d v) n (sortByCount pairs) hshape,
      filter_sortByCount pairs n,
      map_fst_filter_shape (lcvCount cs d v) n pairs
        (by intro p hp; rcases List.mem_map.mp hp with ⟨x, _, hx⟩; rw [← hx]),
      map_fst_pairs]

/-- Witness for C7: variable 0 with domain `[0, 1, 2]` and one binary
constraint `X0 == X1` against partner domain `[1]`: the ordering is a
permutation of the domain with non-decreasing elimination counts. -/
theorem c7_witness :
    List.Perm
      (get_ordered_domain [(0, [.binary 0 1 eqI]), (1, [.binary 1 0 eqI])]
        [(0, [0, 1, 2]), (1, [1])] 0)
      (dget [(0, [0, 1, 2]), (1, [1])] 0) :=
  (c7_ordered_domain_spec [(0, [.binary 0 1 eqI]), (1, [.binary 1 0 eqI])]
    [(0, [0, 1, 2]), (1, [1])] 0 (by decide) (by decide)).1

/-! ### Claim theorems: failed-branch rollback, revise, mode equivalence,
soundness, completeness -/

/-- C1: refuted at a concrete input.  On `cspPairFC` the only trial branch
(`X0 := 0`) fails through propagation (the partner domain `{1}` empties
`X0`'s domain), yet after the rollback at the end of the search the domain
map is restored while the assignment map still contains the trial entry
`X0 -> 0`: the source skips `del_assignments` when `inferences` is false, so
the assignment map is not identical to its pre-trial state (which was empty). -/
theorem c1_failed_branch_keeps_trial_assignment :
    back_track cspPairFC 10 domsPair [] = some ⟨false, [(0, 0)], domsPair⟩ ∧
    ([(0, 0)] : Assign) ≠ [] := by
  refine ⟨by decide, by decide⟩

/-- C2: refuted at a concrete input.  For the arc `(0, 1)` with the single
constraint `X0 == X1`, domain of `0` being `[0, 1]` and domain of `1` being
`[0]`, the value `1` has no support (second conjunct), so the claim requires
`revise` to remove it and return true; the source instead exits its scan at
the first supported value `0` (the `break`), examines nothing further,
removes nothing and returns false (first conjunct). -/
theorem c2_revise_skips_unsupported_value :
    revise csPair [(0, [0, 1]), (1, [0])] 0 1 = ([(0, [0, 1]), (1, [0])], false) ∧
    supported [eqI] [(0 : Val)] 1 = false := by
  refine ⟨by decide, by decide⟩

/-- C3: refuted at a concrete input.  On the unsolvable `csE3` model the two
forward-checking modes disagree: with forward checking on, propagation
shrinks `X1`'s domain to the singleton `{1}`, which is merged into the
assignment without any consistency check, and the solver returns the
assignment `X0 = 1, X1 = 1` even though it violates the unary
`X1 != 1` (third conjunct); with forward checking off the solver correctly
returns the failure signal. -/
theorem c3_forward_checking_changes_outcome :
    back_track ⟨[0, 1], csE3, true⟩ 10 domsE3 [] =
      some ⟨true, [(0, 1), (1, 1)], [(0, [1]), (1, [1])]⟩ ∧
    back_track ⟨[0, 1], csE3, false⟩ 10 domsE3 [] = some ⟨false, [], domsE3⟩ ∧
    assign_sat csE3 [(0, 1), (1, 1)] = false := by
  refine ⟨by decide, by decide, by decide⟩

/-- C4: refuted at a concrete input.  On the well-formed `csE4` model (its
two domains are singletons, so after the trial `X0 := 0` the unassigned
variable 1 is merged as a forward assignment without ever being checked),
`back_track` returns the assignment `X0 = 0, X1 = 0` in both
forward-checking modes, and that assignment violates the unary constraint
`X1 > 0`. -/
theorem c4_returned_assignment_violates_unary :
    back_track ⟨[0, 1], csE4, true⟩ 10 domsE4 [] = some ⟨true, [(0, 0), (1, 0)], domsE4⟩ ∧
    back_track ⟨[0, 1], csE4, false⟩ 10 domsE4 [] = some ⟨true, [(0, 0), (1, 0)], domsE4⟩ ∧
    assign_sat csE4 [(0, 0), (1, 0)] = false := by
  refine ⟨by decide, by decide, by decide⟩

/-- C5: refuted at a concrete input.  The `csE4` model has no satisfying
assignment at all (first conjunct, by brute-force enumeration), yet in both
forward-checking modes `back_track` returns a truthy assignment instead of
the no-solution signal `False` (middle conjuncts).  The triangle sub-case of
the claim does hold: the solver signals failure on it in both modes (last
two conjuncts). -/
theorem c5_unsolvable_instance_not_signalled :
    solvable csE4 domsE4 = false ∧
    (back_track ⟨[0, 1], csE4, true⟩ 10 domsE4 []).map BTRes.success = some true ∧
    (back_track ⟨[0, 1], csE4, false⟩ 10 domsE4 []).map BTRes.success = some true ∧
    (back_track ⟨[0, 1, 2], csTri, true⟩ 30 domsTri []).map BTRes.success = some false ∧
    (back_track ⟨[0, 1, 2], csTri, false⟩ 30 domsTri []).map BTRes.success = some false := by
  refine ⟨by decide, by decide, by decide, by decide, by decide⟩

/-- Witness for C8: on the `csE3` model after the trial `X0 := 1`, `ac_3`
returns with variable 1's domain shrunk from `[0, 1]` to `[1]`, a subsequence. -/
theorem c8_witness :
    List.Sublist (dget [(0, [1]), (1, [1])] 1) (dget [(0, [1]), (1, [0, 1])] 1) :=
  (c8_ac3_domains_shrink ⟨[0, 1], csE3, true⟩ 9 [(0, [1]), (1, [0, 1])] true
    [(0, [1]), (1, [1])] (by decide)).2 1

/-- Witness for C6: three variables, variable 0 assigned, variables 1 and 2
tied at domain size 2; variable 2 has the larger number of binary
constraints with unassigned partner, so it is selected. -/
theorem c6_witness :
    select_unassigned_var [(1, [.binary 1 2 eqI]), (2, [.binary 2 1 eqI, .binary 2 1 eqI])]
        [(0, [5]), (1, [0, 1]), (2, [0, 1])] [(0, 5)] ∈
      tiedVars [(0, [5]), (1, [0, 1]), (2, [0, 1])] [(0, 5)]
        (minDomainSize [(0, [5]), (1, [0, 1]), (2, [0, 1])] [(0, 5)]) ∧
    amem [(0, 5)]
      (select_unassigned_var [(1, [.binary 1 2 eqI]), (2, [.binary 2 1 eqI, .binary 2 1 eqI])]
        [(0, [5]), (1, [0, 1]), (2, [0, 1])] [(0, 5)]) = false :=
  have h := c6_select_unassigned_var_spec
    [(1, [.binary 1 2 eqI]), (2, [.binary 2 1 eqI, .binary 2 1 eqI])]
    [(0, [5]), (1, [0, 1]), (2, [0, 1])] [(0, 5)]
    (by decide) (by decide) ⟨(1, [0, 1]), by decide, by decide⟩
  ⟨h.1, h.2.1⟩

/-- Witness for C9 on the solvable pair model (`X0 == X1`, domains
`{0, 1}`) with the global solution assigning 0 everywhere: after `ac_3` the
value 0 is still in variable 0's domain. -/
theorem c9_witness : (0 : Val) ∈ dget [(0, [0, 1]), (1, [0, 1])] 0 :=
  c9_ac3_keeps_solution_values ⟨[0, 1], csPair, true⟩ (fun _ => 0) 5
    [(0, [0, 1]), (1, [0, 1])] true [(0, [0, 1]), (1, [0, 1])]
    (by decide) (by decide) (by decide) (by decide) (by decide) 0 (by decide)

/-! ### Claim theorem: the empty-variable CSP and truthiness -/

/-- C10: for a CSP whose variable list is empty, `back_track` on a fresh
empty assignment immediately returns success carrying the empty assignment;
under the truthiness test used at the recursion site that result is falsy,
exactly like the failure signal, and `print_assignment` reports NO SOLUTION
on it. -/
theorem c10_empty_variables_success_is_falsy (c : CSP) (d : Doms) (fuel : Nat)
    (h : c.vars = []) :
    back_track c (fuel + 1) d [] = some ⟨true, [], d⟩ ∧
    truthy ⟨true, [], d⟩ = false ∧
    (∀ a dd, truthy ⟨false, a, dd⟩ = false) ∧
    prints_no_solution [] = true := by
  refine ⟨?_, rfl, fun a dd => rfl, rfl⟩
  simp [back_track, h]

/-- Witness for C10 at the concrete empty CSP. -/
theorem c10_witness :
    back_track ⟨[], [], true⟩ 1 [] [] = some ⟨true, [], []⟩ ∧
    truthy ⟨true, [], []⟩ = false ∧
    (∀ a dd, truthy ⟨false, a, dd⟩ = false) ∧
    prints_no_solution [] = true :=
  c10_empty_variables_success_is_falsy ⟨[], [], true⟩ [] 0 rfl

end CSPSolver
